import Mathlib

/-!
Shallow embedding of the fraud-detection pipeline core
(class `FraudDetectionPipeline`): the Cleaner (`clean_data`), the Rule
Engine (`apply_rule_based_detection`) and the summary dictionary built by
`run_pipeline`.  A DataFrame is a list of rows; a missing cell (`NaN`/`NaT`)
is explicit.  Timestamps are integer epoch seconds once parsed; amounts are
rationals.  String handling is modelled over ASCII: the regex class `\w`
is a letter, a digit or an underscore, and `\s` is whitespace.
-/

deriving instance DecidableEq for Except

/-- A cell of the `timestamp` column: an unparsed raw string, a parsed
instant (epoch seconds), or a missing value (`NaT`). -/
inductive TSVal where
  | raw (s : String)
  | parsed (t : Int)
  | null
deriving DecidableEq

/-- One row of the transaction table; `none` models a missing (`NaN`) cell. -/
structure Record where
  transaction_id : Option String
  timestamp : TSVal
  amount : Option ℚ
  merchant : Option String
  user_id : Option String
  is_fraud : Option Bool
deriving DecidableEq

/-- Row builder for fully populated rows. -/
def mkRec (id : String) (ts : TSVal) (amt : ℚ) (mer : String) (usr : String)
    (fr : Bool) : Record :=
  ⟨some id, ts, some amt, some mer, some usr, some fr⟩

/-- Python whitespace (`str.strip`, regex `\s`), ASCII range. -/
def isSpaceCh (c : Char) : Bool :=
  c = ' ' || c = '\t' || c = '\n' || c = '\r' || c.toNat = 11 || c.toNat = 12

/-- Regex class `\w`: letter, digit or underscore (ASCII model). -/
def isWordCh (c : Char) : Bool :=
  c.isAlpha || c.isDigit || c = '_'

/-- Python `str.strip()`: drop leading and trailing whitespace. -/
def stripChars (l : List Char) : List Char :=
  ((l.dropWhile isSpaceCh).reverse.dropWhile isSpaceCh).reverse

/-- The replacement of `[^\w\s]` by the empty string: keep only word
characters and whitespace. -/
def keepWordSpace (l : List Char) : List Char :=
  l.filter (fun c => isWordCh c || isSpaceCh c)

/-- `str.strip()` as a `String` map. -/
def stripStr (s : String) : String :=
  String.mk (stripChars s.data)

/-- The merchant normalization in `clean_data`: strip surrounding
whitespace, then delete every character that is neither a word character
nor whitespace. -/
def normMerchStr (s : String) : String :=
  String.mk (keepWordSpace (stripChars s.data))

/-- The `merchant` column assignments of `clean_data` on one row. -/
def normMerchant (r : Record) : Record :=
  { r with merchant := r.merchant.map normMerchStr }

/-- Worker for `drop_duplicates`: `seen` is the set of ids already kept.
pandas treats two missing ids as duplicates of each other, hence the keys
are `Option String`. -/
def dedupGo (seen : List (Option String)) : List Record → List Record
  | [] => []
  | r :: rs =>
    if r.transaction_id ∈ seen then dedupGo seen rs
    else r :: dedupGo (r.transaction_id :: seen) rs

/-- `df.drop_duplicates(subset=[transaction_id])` with the default
`keep=first`: retain the first row of each id, in input order. -/
def dedupById (rs : List Record) : List Record :=
  dedupGo [] rs

/-- Decimal digit-string accumulator for the modelled timestamp parser. -/
def decDigits : List Char → Nat → Option Nat
  | [], acc => some acc
  | c :: cs, acc =>
    if c.isDigit then decDigits cs (acc * 10 + (c.toNat - 48)) else none

/-- Modelled timestamp text parser standing for `pd.to_datetime` on one raw
string: a nonempty digit string denotes epoch seconds, anything else fails
to parse. -/
def parseRawTs (s : String) : Option Int :=
  if s.data.isEmpty then none
  else (decDigits s.data 0).map (fun n => (n : Int))

/-- `pd.to_datetime` on one cell with the default `errors=raise`: a raw
string either parses or raises, an already-parsed value passes through, a
missing value stays missing (`NaT`). -/
def parseTs : TSVal → Except String TSVal
  | .raw s =>
    match parseRawTs s with
    | some t => .ok (.parsed t)
    | none => .error ("unparseable timestamp: " ++ s)
  | .parsed t => .ok (.parsed t)
  | .null => .ok .null

/-- `pd.to_datetime` over the whole `timestamp` column: the first
unparseable cell raises and the whole batch fails. -/
def parseAllTs : List Record → Except String (List Record)
  | [] => .ok []
  | r :: rs =>
    match parseTs r.timestamp with
    | .error e => .error e
    | .ok t =>
      match parseAllTs rs with
      | .error e => .error e
      | .ok rest => .ok ({ r with timestamp := t } :: rest)

/-- Total version of the per-cell timestamp conversion, used to describe the
rows that survive a successful `clean`. -/
def parseTsTotal : TSVal → TSVal
  | .raw s =>
    match parseRawTs s with
    | some t => .parsed t
    | none => .null
  | .parsed t => .parsed t
  | .null => .null

/-- Timestamp cell is not missing (`df.dropna` keeps a non-`NaT` cell). -/
def tsNonNull : TSVal → Bool
  | .null => false
  | _ => true

/-- `df.dropna()` keeps the row: no missing cell in any column. -/
def recComplete (r : Record) : Bool :=
  r.transaction_id.isSome && tsNonNull r.timestamp && r.amount.isSome &&
    r.merchant.isSome && r.user_id.isSome && r.is_fraud.isSome

/-- The timestamp conversion on one row. -/
def parseTsRec (r : Record) : Record :=
  { r with timestamp := parseTsTotal r.timestamp }

/-- The per-row effect of a successful `clean` on a surviving row:
timestamp parsed, merchant normalized, all other cells unchanged. -/
def cleanRec (r : Record) : Record :=
  normMerchant (parseTsRec r)

/-- `clean_data`: drop duplicate ids (keep first), convert the timestamp
column (an unparseable value raises and the exception propagates), drop
rows with a missing cell, then normalize the merchant strings. -/
def clean (rs : List Record) : Except String (List Record) :=
  match parseAllTs (dedupById rs) with
  | .error e => .error e
  | .ok p => .ok ((p.filter recComplete).map normMerchant)

/-- `clean` raised. -/
def isErr : Except String (List Record) → Bool
  | .error _ => true
  | .ok _ => false

/-- Rule 1: `amount > 1000` (a missing amount compares false, NaN
semantics). -/
def r1Flag (r : Record) : Bool :=
  match r.amount with
  | some a => decide (a > 1000)
  | none => false

/-- The `high_risk_merchants` list of `apply_rule_based_detection`. -/
def riskKeywords : List String := ["Casino", "Gaming", "Crypto", "Betting"]

/-- ASCII lower-casing of one character. -/
def lowerCh (c : Char) : Char :=
  if 'A' ≤ c && c ≤ 'Z' then Char.ofNat (c.toNat + 32) else c

/-- ASCII lower-casing of a character list. -/
def lowerChars (l : List Char) : List Char :=
  l.map lowerCh

/-- Does `l` start with `n`? -/
def hasPfxCL : List Char → List Char → Bool
  | [], _ => true
  | _ :: _, [] => false
  | a :: n, b :: l => a = b && hasPfxCL n l

/-- Does `l` contain `n` as a contiguous substring? -/
def hasSubCL (n : List Char) : List Char → Bool
  | [] => n.isEmpty
  | c :: l => hasPfxCL n (c :: l) || hasSubCL n l

/-- Case-insensitive substring test: the meaning of
`str.contains(pat, case=False)` for a literal keyword `n` of the joined
alternation pattern. -/
def containsCI (hay n : String) : Bool :=
  hasSubCL (lowerChars n.data) (lowerChars hay.data)

/-- Rule 2: the merchant matches the joined keyword pattern
case-insensitively; a missing merchant is false (`na=False`). -/
def r2Flag (r : Record) : Bool :=
  match r.merchant with
  | some m => riskKeywords.any (fun k => containsCI m k)
  | none => false

/-- The cell `groupby(user_id)[timestamp].shift(1)` places on the row of
content `r` sitting at index `i` of the frame `all`: the timestamp cell of
the most recent earlier row with the same user id, missing when there is no
such row or when the user id itself is missing (pandas drops `NaN` group
keys). -/
def prevUserTsAt (all : List Record) (i : Nat) (r : Record) : Option TSVal :=
  match r.user_id with
  | none => none
  | some u =>
    (((all.take i).filter (fun x => x.user_id = some u)).getLast?).map
      (fun x => x.timestamp)

/-- Rule 3 on the row at index `i`:
`(timestamp - prev_transaction_time).total_seconds() < 60`; a missing
operand makes the comparison false (NaN semantics). -/
def rapidAt (all : List Record) (i : Nat) (r : Record) : Bool :=
  match r.timestamp, prevUserTsAt all i r with
  | .parsed t, some (.parsed p) => decide (t - p < 60)
  | _, _ => false

/-- A scored row: the original row plus the two derived columns that
`apply_rule_based_detection` adds (its temporary `prev_transaction_time`
column is dropped before returning). -/
structure Scored where
  base : Record
  rule_based_fraud_flag : Bool
  fraud_score : Nat
deriving DecidableEq

/-- The three rules evaluated on the row of content `r` at index `i`, then
combined: flag is the disjunction, score the number of rules triggered. -/
def scoreAt (all : List Record) (i : Nat) (r : Record) : Scored :=
  let f1 := r1Flag r
  let f2 := r2Flag r
  let f3 := rapidAt all i r
  { base := r
    rule_based_fraud_flag := f1 || f2 || f3
    fraud_score := (cond f1 1 0) + (cond f2 1 0) + (cond f3 1 0) }

/-- Row-wise traversal of the frame carrying the absolute row index. -/
def scoreFrom (all : List Record) (i : Nat) : List Record → List Scored
  | [] => []
  | r :: rs => scoreAt all i r :: scoreFrom all (i + 1) rs

/-- `apply_rule_based_detection`: works on a copy of the frame and returns
every row annotated with `rule_based_fraud_flag` and `fraud_score`. -/
def scoreRecords (rs : List Record) : List Scored :=
  scoreFrom rs 0 rs

/-- The summary dictionary built at the end of `run_pipeline`. -/
structure Summary where
  total_records : Nat
  original_fraud_flags : Nat
  rule_based_flags : Nat
  high_risk_transactions : Nat
deriving DecidableEq

/-- `run_pipeline`'s summary statistics: `len`, `is_fraud` column sum,
flag column sum, and the count of rows with `fraud_score >= 2`. -/
def summarize (scored : List Scored) : Summary :=
  { total_records := scored.length
    original_fraud_flags :=
      (scored.filter (fun s => s.base.is_fraud = some true)).length
    rule_based_flags :=
      (scored.filter (fun s => s.rule_based_fraud_flag)).length
    high_risk_transactions :=
      (scored.filter (fun s => decide (2 ≤ s.fraud_score))).length }

/-- `run_pipeline` without the external loader and sink: clean, score,
summarize; a cleaning exception aborts the batch. -/
def run_pipeline (rs : List Record) : Except String (List Scored × Summary) :=
  match clean rs with
  | .error e => .error e
  | .ok c =>
    let scored := scoreRecords c
    .ok (scored, summarize scored)

/-- The user id of the row at index `j`, if any. -/
def userAt (all : List Record) (j : Nat) : Option String :=
  match all[j]? with
  | some r => r.user_id
  | none => none

/-- The parsed timestamp of the row at index `j` (0 when absent or not
parsed; only used on frames whose timestamps are all parsed). -/
def tsIntAt (all : List Record) (j : Nat) : Int :=
  match all[j]? with
  | some r =>
    match r.timestamp with
    | .parsed t => t
    | _ => 0
  | none => 0

/-- Sort key the specification prescribes for a row: timestamp ascending,
ties broken by original input position. -/
def specKeyAt (all : List Record) (j : Nat) : Int × Nat :=
  (tsIntAt all j, j)

/-- Strict lexicographic order on the specification's sort keys. -/
def keyLtB (a b : Int × Nat) : Bool :=
  a.1 < b.1 || (a.1 = b.1 && a.2 < b.2)

/-- Index whose key is largest in the list (the positional predecessor is
the largest key below the row's own key). -/
def maxKeyIdx (all : List Record) : List Nat → Option Nat
  | [] => none
  | j :: js =>
    match maxKeyIdx all js with
    | none => some j
    | some k => if keyLtB (specKeyAt all j) (specKeyAt all k) then some k else some j

/-- Second definition, following the specification's words rather than the
code, for comparison: the predecessor of row `i` is its positional
predecessor in that user's rows sorted by timestamp ascending with ties
broken by input position, i.e. the same-user row with the largest sort key
strictly below row `i`'s key. -/
def specPrevIdx (all : List Record) (i : Nat) : Option Nat :=
  match userAt all i with
  | none => none
  | some u =>
    maxKeyIdx all (((List.range all.length).filter
      (fun j => userAt all j = some u && keyLtB (specKeyAt all j) (specKeyAt all i))))

/-- Rule 3 as the specification words it: elapsed time from the
timestamp-sorted positional predecessor, strictly below 60 seconds; no
predecessor means false. -/
def specSortedRapidAt (all : List Record) (i : Nat) : Bool :=
  match specPrevIdx all i with
  | some j => decide (tsIntAt all i - tsIntAt all j < 60)
  | none => false

/-- `n` occurs contiguously inside `h`. -/
def IsSubstrOf (n h : List Char) : Prop :=
  ∃ l₁ l₂, h = l₁ ++ n ++ l₂

/-- A two-row frame for one user whose rows are NOT in timestamp order:
the later instant (t = 100) comes first in the input. -/
def exTwoRows : List Record :=
  [mkRec "A" (TSVal.parsed 100) 5 "Shop" "U" false,
   mkRec "B" (TSVal.parsed 0) 5 "Shop" "U" false]

/-- The end-to-end scenario of the specification: a duplicated high-risk
row for user U1 followed by a small purchase 30 seconds later. -/
def exBatch : List Record :=
  [mkRec "A" (TSVal.raw "0") 1500 "Casino Royale" "U1" true,
   mkRec "A" (TSVal.raw "0") 1500 "Casino Royale" "U1" true,
   mkRec "B" (TSVal.raw "30") 5 "Coffee Shop" "U1" false]

/-- The scored rows the pipeline produces on `exBatch`. -/
def exBatchScored : List Scored :=
  [⟨mkRec "A" (TSVal.parsed 0) 1500 "Casino Royale" "U1" true, true, 2⟩,
   ⟨mkRec "B" (TSVal.parsed 30) 5 "Coffee Shop" "U1" false, true, 1⟩]

/-- The summary the pipeline produces on `exBatch`. -/
def exBatchSummary : Summary := ⟨2, 1, 2, 1⟩

/-- The canonical rows `clean` produces on `exBatch`. -/
def exBatchClean : List Record :=
  [mkRec "A" (TSVal.parsed 0) 1500 "Casino Royale" "U1" true,
   mkRec "B" (TSVal.parsed 30) 5 "Coffee Shop" "U1" false]

/-- A one-row batch whose merchant is already in normal form. -/
def exPlain : List Record :=
  [mkRec "S" (TSVal.raw "5") 10 "Plain Shop" "U" false]

/-- The cleaned form of `exPlain`. -/
def exPlainClean : List Record :=
  [mkRec "S" (TSVal.parsed 5) 10 "Plain Shop" "U" false]

/- ------------------------------------------------------------------ -/
/- Lemmas about the embedding.                                         -/
/- ------------------------------------------------------------------ -/

theorem dedupGo_sublist (rs : List Record) :
    ∀ seen, (dedupGo seen rs).Sublist rs := by
  induction rs with
  | nil => intro seen; simp [dedupGo]
  | cons r rs ih =>
    intro seen
    rw [dedupGo]
    split
    · exact (ih seen).cons r
    · exact (ih (r.transaction_id :: seen)).cons₂ r

theorem mem_dedupGo (rs : List Record) :
    ∀ seen r, r ∈ dedupGo seen rs →
      r.transaction_id ∉ seen ∧
      ∃ l₁ l₂, rs = l₁ ++ r :: l₂ ∧
        ∀ x ∈ l₁, x.transaction_id ≠ r.transaction_id := by
  induction rs with
  | nil => intro seen r h; simp [dedupGo] at h
  | cons x rs ih =>
    intro seen r h
    rw [dedupGo] at h
    by_cases hx : x.transaction_id ∈ seen
    · rw [if_pos hx] at h
      rcases ih seen r h with ⟨hn, l₁, l₂, hdec, hne⟩
      refine ⟨hn, x :: l₁, l₂, by rw [hdec]; rfl, ?_⟩
      intro y hy
      rcases List.mem_cons.mp hy with hy | hy
      · subst hy; intro he; exact hn (he ▸ hx)
      · exact hne y hy
    · rw [if_neg hx] at h
      rcases List.mem_cons.mp h with h | h
      · subst h; exact ⟨hx, [], rs, rfl, by simp⟩
      · rcases ih (x.transaction_id :: seen) r h with ⟨hn, l₁, l₂, hdec, hne⟩
        have hn1 : r.transaction_id ∉ seen := fun hc => hn (List.mem_cons_of_mem _ hc)
        have hn2 : r.transaction_id ≠ x.transaction_id := by
          intro he; exact hn (he ▸ List.mem_cons_self _ _)
        refine ⟨hn1, x :: l₁, l₂, by rw [hdec]; rfl, ?_⟩
        intro y hy
        rcases List.mem_cons.mp hy with hy | hy
        · subst hy; exact fun he => hn2 he.symm
        · exact hne y hy

theorem pairwise_dedupGo (rs : List Record) :
    ∀ seen, List.Pairwise
      (fun a b => a.transaction_id ≠ b.transaction_id) (dedupGo seen rs) := by
  induction rs with
  | nil => intro seen; simp [dedupGo]
  | cons x rs ih =>
    intro seen
    rw [dedupGo]
    split
    · exact ih seen
    · refine List.Pairwise.cons ?_ (ih (x.transaction_id :: seen))
      intro b hb
      have := (mem_dedupGo rs _ b hb).1
      intro he
      exact this (he ▸ List.mem_cons_self _ _)

theorem dedupGo_eq_self (rs : List Record) :
    ∀ seen, (∀ x ∈ rs, x.transaction_id ∉ seen) →
      List.Pairwise (fun a b => a.transaction_id ≠ b.transaction_id) rs →
      dedupGo seen rs = rs := by
  induction rs with
  | nil => intro seen _ _; rfl
  | cons x rs ih =>
    intro seen hseen hpw
    rw [dedupGo, if_neg (hseen x (List.mem_cons_self _ _))]
    congr 1
    refine ih (x.transaction_id :: seen) ?_ hpw.of_cons
    intro y hy
    intro hc
    rcases List.mem_cons.mp hc with hc | hc
    · exact (List.pairwise_cons.mp hpw).1 y hy hc.symm
    · exact hseen y (List.mem_cons_of_mem _ hy) hc

theorem parseTs_ok_eq {v w : TSVal} (h : parseTs v = .ok w) :
    w = parseTsTotal v := by
  cases v with
  | raw s =>
    cases hp : parseRawTs s with
    | some t => rw [parseTs, hp] at h; injection h with h; simp [parseTsTotal, hp, ← h]
    | none => rw [parseTs, hp] at h; cases h
  | parsed t => rw [parseTs] at h; injection h with h; rw [parseTsTotal, h]
  | null => rw [parseTs] at h; injection h with h; rw [parseTsTotal, h]

theorem parseAllTs_ok (l : List Record) :
    ∀ p, parseAllTs l = .ok p → p = l.map parseTsRec := by
  induction l with
  | nil => intro p h; injection h with h; rw [← h]; rfl
  | cons r l ih =>
    intro p h
    rw [parseAllTs] at h
    cases h1 : parseTs r.timestamp with
    | error e => rw [h1] at h; cases h
    | ok t =>
      rw [h1] at h
      cases h2 : parseAllTs l with
      | error e => rw [h2] at h; cases h
      | ok rest =>
        rw [h2] at h
        injection h with h
        rw [← h, List.map_cons, ← ih rest h2, parseTs_ok_eq h1]
        rfl

theorem parseAllTs_id (l : List Record)
    (h : ∀ r ∈ l, parseTs r.timestamp = .ok r.timestamp) :
    parseAllTs l = .ok l := by
  induction l with
  | nil => rfl
  | cons r l ih =>
    rw [parseAllTs, h r (List.mem_cons_self _ _),
      ih (fun x hx => h x (List.mem_cons_of_mem _ hx))]

theorem parseAllTs_error_of_mem (l : List Record) (r : Record) (s : String)
    (hmem : r ∈ l) (hts : r.timestamp = .raw s) (hbad : parseRawTs s = none) :
    ∃ e, parseAllTs l = .error e := by
  induction l with
  | nil => cases hmem
  | cons x l ih =>
    rcases List.mem_cons.mp hmem with h | h
    · subst h
      refine ⟨"unparseable timestamp: " ++ s, ?_⟩
      rw [parseAllTs, hts, parseTs, hbad]
    · cases h1 : parseTs x.timestamp with
      | error e => exact ⟨e, by rw [parseAllTs, h1]⟩
      | ok t =>
        rcases ih h with ⟨e, he⟩
        exact ⟨e, by rw [parseAllTs, h1, he]⟩

theorem rapidAt_no_same_user (all : List Record) (i : Nat) (r : Record)
    (u : String) (hu : r.user_id = some u)
    (h : ∀ x ∈ all.take i, x.user_id ≠ some u) :
    rapidAt all i r = false := by
  have hf : (all.take i).filter (fun x => x.user_id = some u) = [] :=
    List.filter_eq_nil_iff.mpr (fun x hx => by simp [h x hx])
  cases hts : r.timestamp <;> simp [rapidAt, prevUserTsAt, hu, hf, hts]

theorem filter_getLast?_decomp (p : Record → Bool) (l₁ l₂ : List Record)
    (rj : Record) (hj : p rj = true) (h₂ : ∀ x ∈ l₂, p x = false) :
    ((l₁ ++ rj :: l₂).filter p).getLast? = some rj := by
  have h2nil : l₂.filter p = [] :=
    List.filter_eq_nil_iff.mpr (fun x hx => by simp [h₂ x hx])
  rw [List.filter_append, List.filter_cons, if_pos hj, h2nil,
    List.getLast?_concat]

theorem rapidAt_last_same_user (all : List Record) (i : Nat) (r rj : Record)
    (u : String) (l₁ l₂ : List Record) (t p : Int)
    (hu : r.user_id = some u) (hdec : all.take i = l₁ ++ rj :: l₂)
    (hju : rj.user_id = some u) (h₂ : ∀ x ∈ l₂, x.user_id ≠ some u)
    (ht : r.timestamp = .parsed t) (hp : rj.timestamp = .parsed p) :
    rapidAt all i r = decide (t - p < 60) := by
  have hlast : ((all.take i).filter (fun x => x.user_id = some u)).getLast?
      = some rj := by
    rw [hdec]
    exact filter_getLast?_decomp _ l₁ l₂ rj (by simp [hju])
      (fun x hx => by simp [h₂ x hx])
  simp [rapidAt, prevUserTsAt, hu, hlast, ht, hp]

theorem scoreFrom_getElem? (all : List Record) (k : Nat) (l : List Record)
    (i : Nat) :
    (scoreFrom all k l)[i]? = l[i]?.map (fun r => scoreAt all (k + i) r) := by
  induction l generalizing k i with
  | nil => simp [scoreFrom]
  | cons r rs ih =>
    cases i with
    | zero => simp [scoreFrom]
    | succ n =>
      simp only [scoreFrom, List.getElem?_cons_succ]
      rw [ih (k + 1) n]
      have : k + 1 + n = k + (n + 1) := by omega
      rw [this]

theorem scoreFrom_map_base (all : List Record) (k : Nat) (l : List Record) :
    (scoreFrom all k l).map Scored.base = l := by
  induction l generalizing k with
  | nil => simp [scoreFrom]
  | cons r rs ih => simp [scoreFrom, scoreAt, ih]

theorem hasPfxCL_iff (n : List Char) :
    ∀ l, hasPfxCL n l = true ↔ ∃ t, l = n ++ t := by
  induction n with
  | nil => intro l; simp [hasPfxCL]
  | cons a n ih =>
    intro l
    cases l with
    | nil => simp [hasPfxCL]
    | cons b l =>
      simp only [hasPfxCL, Bool.and_eq_true, decide_eq_true_eq, ih,
        List.cons_append, List.cons.injEq]
      constructor
      · rintro ⟨hab, t, ht⟩; exact ⟨t, hab.symm, ht⟩
      · rintro ⟨t, hba, ht⟩; exact ⟨hba.symm, t, ht⟩

theorem hasSubCL_iff (n : List Char) :
    ∀ l, hasSubCL n l = true ↔ IsSubstrOf n l := by
  intro l
  induction l with
  | nil =>
    simp only [hasSubCL, List.isEmpty_iff, IsSubstrOf]
    constructor
    · rintro rfl; exact ⟨[], [], rfl⟩
    · rintro ⟨l₁, l₂, h⟩
      rcases List.append_eq_nil.mp h.symm with ⟨h1, h2⟩
      exact (List.append_eq_nil.mp h1).2
  | cons c l ih =>
    simp only [hasSubCL, Bool.or_eq_true, hasPfxCL_iff, ih, IsSubstrOf]
    constructor
    · rintro (⟨t, ht⟩ | ⟨l₁, l₂, h⟩)
      · exact ⟨[], t, by simp [ht]⟩
      · exact ⟨c :: l₁, l₂, by simp [h]⟩
    · rintro ⟨l₁, l₂, h⟩
      cases l₁ with
      | nil => exact Or.inl ⟨l₂, by simpa using h⟩
      | cons d l₁ =>
        simp only [List.cons_append, List.cons.injEq] at h
        exact Or.inr ⟨l₁, l₂, h.2⟩

/- ------------------------------------------------------------------ -/
/- Claims.                                                             -/
/- ------------------------------------------------------------------ -/

/-- C4: every row the Rule Engine produces has `fraud_score` between 0 and
3, the score counts exactly how many of R1, R2, R3 hold on that row, and
`rule_based_fraud_flag` holds iff the score is positive. -/
theorem c4_score_invariants (rs : List Record) (i : Nat) (s : Scored)
    (h : (scoreRecords rs)[i]? = some s) :
    s.fraud_score ≤ 3 ∧
    s.fraud_score = (cond (r1Flag s.base) 1 0) + (cond (r2Flag s.base) 1 0) +
      (cond (rapidAt rs i s.base) 1 0) ∧
    (s.rule_based_fraud_flag = true ↔ 0 < s.fraud_score) := by
  rw [scoreRecords, scoreFrom_getElem?] at h
  simp only [Nat.zero_add] at h
  rcases Option.map_eq_some'.mp h with ⟨r, _, rfl⟩
  cases h1 : r1Flag r <;> cases h2 : r2Flag r <;> cases h3 : rapidAt rs i r <;>
    simp [scoreAt, h1, h2, h3]

/-- C4 witness: the invariants at row 1 of a concrete two-row frame. -/
theorem c4_witness :
    (⟨mkRec "B" (TSVal.parsed 0) 5 "Shop" "U" false, true, 1⟩ : Scored).fraud_score ≤ 3 ∧
    (⟨mkRec "B" (TSVal.parsed 0) 5 "Shop" "U" false, true, 1⟩ : Scored).fraud_score =
      (cond (r1Flag (Scored.base ⟨mkRec "B" (TSVal.parsed 0) 5 "Shop" "U" false, true, 1⟩)) 1 0) +
      (cond (r2Flag (Scored.base ⟨mkRec "B" (TSVal.parsed 0) 5 "Shop" "U" false, true, 1⟩)) 1 0) +
      (cond (rapidAt exTwoRows 1 (Scored.base ⟨mkRec "B" (TSVal.parsed 0) 5 "Shop" "U" false, true, 1⟩)) 1 0) ∧
    ((⟨mkRec "B" (TSVal.parsed 0) 5 "Shop" "U" false, true, 1⟩ : Scored).rule_based_fraud_flag = true ↔
      0 < (⟨mkRec "B" (TSVal.parsed 0) 5 "Shop" "U" false, true, 1⟩ : Scored).fraud_score) :=
  c4_score_invariants exTwoRows 1 _ (by decide)

/-- C10: the Rule Engine is pure and non-destructive: it returns one scored
row per input row, each scored row carries the six original attributes
unchanged in its `base`, and `Scored` has exactly the two extra columns
(the temporary predecessor column does not appear in the output type). -/
theorem c10_frame (rs : List Record) :
    (scoreRecords rs).map Scored.base = rs ∧
    (scoreRecords rs).length = rs.length := by
  refine ⟨scoreFrom_map_base rs 0 rs, ?_⟩
  have h := congrArg List.length (scoreFrom_map_base rs 0 rs)
  simpa [scoreRecords] using h

/-- C5: R1 holds exactly when the amount is strictly greater than 1000; at
exactly 1000.00 it does not fire, at 1000.01 it does. -/
theorem c5_r1_boundary :
    (∀ r : Record, ∀ a : ℚ, r.amount = some a → (r1Flag r = true ↔ a > 1000)) ∧
    r1Flag (mkRec "A" (TSVal.parsed 0) 1000 "Shop" "U" false) = false ∧
    r1Flag (mkRec "A" (TSVal.parsed 0) ((100001 : ℚ) / 100) "Shop" "U" false) = true := by
  refine ⟨?_, by decide, ?_⟩
  · intro r a h; simp [r1Flag, h]
  · simp only [r1Flag, mkRec, decide_eq_true_eq]
    norm_num

/-- C5 witness: the equivalence instantiated on a concrete record. -/
theorem c5_witness :
    r1Flag (mkRec "W" (TSVal.parsed 0) 5 "Shop" "U" false) = true ↔ (5 : ℚ) > 1000 :=
  c5_r1_boundary.1 (mkRec "W" (TSVal.parsed 0) 5 "Shop" "U" false) 5 rfl

/-- C6: R2 holds exactly when the merchant contains one of the four risk
keywords as a case-insensitive substring; merchants cryptoExchange and
CRYPTO Exchange fire, merchant Crypt does not. -/
theorem c6_r2_keywords :
    (∀ r : Record, ∀ m : String, r.merchant = some m →
      (r2Flag r = true ↔
        ∃ k ∈ riskKeywords, IsSubstrOf (lowerChars k.data) (lowerChars m.data))) ∧
    r2Flag (mkRec "A" (TSVal.parsed 0) 5 "cryptoExchange" "U" false) = true ∧
    r2Flag (mkRec "A" (TSVal.parsed 0) 5 "CRYPTO Exchange" "U" false) = true ∧
    r2Flag (mkRec "A" (TSVal.parsed 0) 5 "Crypt" "U" false) = false := by
  refine ⟨?_, by decide, by decide, by decide⟩
  intro r m h
  simp [r2Flag, h, List.any_eq_true, containsCI, hasSubCL_iff]

/-- C6 witness: the equivalence instantiated on a concrete record. -/
theorem c6_witness :
    r2Flag (mkRec "W" (TSVal.parsed 0) 5 "Crypt" "U" false) = true ↔
      ∃ k ∈ riskKeywords,
        IsSubstrOf (lowerChars k.data) (lowerChars ("Crypt" : String).data) :=
  c6_r2_keywords.1 (mkRec "W" (TSVal.parsed 0) 5 "Crypt" "U" false) "Crypt" rfl

/-- C9: the summary the pipeline returns counts the scored rows, the rows
whose ground-truth label is true, the rows the rules flagged, and the rows
with score at least 2. -/
theorem c9_summary (rs : List Record) (scored : List Scored) (s : Summary)
    (h : run_pipeline rs = .ok (scored, s)) :
    s.total_records = scored.length ∧
    s.original_fraud_flags = scored.countP (fun x => decide (x.base.is_fraud = some true)) ∧
    s.rule_based_flags = scored.countP (fun x => x.rule_based_fraud_flag) ∧
    s.high_risk_transactions = scored.countP (fun x => decide (2 ≤ x.fraud_score)) := by
  rw [run_pipeline] at h
  cases hc : clean rs with
  | error e => rw [hc] at h; cases h
  | ok c =>
    rw [hc] at h
    injection h with h
    injection h with h1 h2
    subst h1; subst h2
    simp [summarize, List.countP_eq_length_filter]

/-- C9 witness: the summary equalities on the specification's end-to-end
three-row batch. -/
theorem c9_witness :
    exBatchSummary.total_records = exBatchScored.length ∧
    exBatchSummary.original_fraud_flags =
      exBatchScored.countP (fun x => decide (x.base.is_fraud = some true)) ∧
    exBatchSummary.rule_based_flags =
      exBatchScored.countP (fun x => x.rule_based_fraud_flag) ∧
    exBatchSummary.high_risk_transactions =
      exBatchScored.countP (fun x => decide (2 ≤ x.fraud_score)) :=
  c9_summary exBatch exBatchScored exBatchSummary (by decide)

/-- C1 counterexample: on a frame where user U's two rows arrive in
descending timestamp order, the engine's R3 fires on the second input row
(elapsed time 0 - 100 < 60 computed against the input-order predecessor),
while the timestamp-sorted positional predecessor prescribed by the claim
yields R3 false there: the code does not use the sorted ordering. -/
theorem c1_counterexample :
    rapidAt exTwoRows 1 (mkRec "B" (TSVal.parsed 0) 5 "Shop" "U" false) = true ∧
    (scoreRecords exTwoRows)[1]? =
      some ⟨mkRec "B" (TSVal.parsed 0) 5 "Shop" "U" false, true, 1⟩ ∧
    specSortedRapidAt exTwoRows 1 = false := by decide

/-- C1 (amended): R3's elapsed time is computed against the most recent
PRECEDING row for the same user in input order (the groupby order), not
against the timestamp-sorted positional predecessor; a row with no earlier
same-user row gets R3 false. -/
theorem c1_input_order_predecessor :
    (∀ (all : List Record) (i : Nat) (r : Record) (u : String),
      r.user_id = some u → (∀ x ∈ all.take i, x.user_id ≠ some u) →
      rapidAt all i r = false) ∧
    (∀ (all : List Record) (i : Nat) (r rj : Record) (u : String)
      (l₁ l₂ : List Record) (t p : Int),
      r.user_id = some u → all.take i = l₁ ++ rj :: l₂ →
      rj.user_id = some u → (∀ x ∈ l₂, x.user_id ≠ some u) →
      r.timestamp = .parsed t → rj.timestamp = .parsed p →
      rapidAt all i r = decide (t - p < 60)) :=
  ⟨rapidAt_no_same_user, rapidAt_last_same_user⟩

/-- C1 witness: the input-order predecessor characterization on the
concrete two-row frame. -/
theorem c1_witness :
    rapidAt exTwoRows 1 (mkRec "B" (TSVal.parsed 0) 5 "Shop" "U" false) =
      decide ((0 : Int) - 100 < 60) :=
  c1_input_order_predecessor.2 exTwoRows 1
    (mkRec "B" (TSVal.parsed 0) 5 "Shop" "U" false)
    (mkRec "A" (TSVal.parsed 100) 5 "Shop" "U" false) "U" [] [] 0 100
    rfl rfl rfl (by simp) rfl rfl

/-- C2 counterexample: a two-row batch whose first row has an unparseable
timestamp makes the Cleaner raise: the whole batch fails and the healthy
second row is not returned, contradicting per-record removal. -/
theorem c2_counterexample :
    clean [mkRec "T1" (TSVal.raw "bad.") 5 "Shop" "U1" false,
           mkRec "T2" (TSVal.raw "100") 7 "Cafe" "U1" false] =
      .error "unparseable timestamp: bad." := by decide

/-- C2 (amended): an unparseable timestamp is a whole-batch failure: if any
row that survives deduplication carries a raw timestamp that does not
parse, `clean` raises instead of returning a cleaned batch. -/
theorem c2_unparseable_raises (rs : List Record) (r : Record) (s : String)
    (hmem : r ∈ dedupById rs) (hts : r.timestamp = .raw s)
    (hbad : parseRawTs s = none) :
    isErr (clean rs) = true := by
  rcases parseAllTs_error_of_mem (dedupById rs) r s hmem hts hbad with ⟨e, he⟩
  rw [clean, he]
  rfl

/-- C2 witness: the amended statement on the concrete two-row batch. -/
theorem c2_witness :
    isErr (clean [mkRec "T1" (TSVal.raw "bad.") 5 "Shop" "U1" false,
                  mkRec "T2" (TSVal.raw "100") 7 "Cafe" "U1" false]) = true :=
  c2_unparseable_raises _ (mkRec "T1" (TSVal.raw "bad.") 5 "Shop" "U1" false)
    "bad." (by decide) rfl (by decide)

/-- C8: a row with no preceding same-user row has R3 false regardless of
amount or merchant; and for a user with exactly two rows, R3 on the second
fires at an elapsed time of 59 seconds and not at 61 seconds (the trigger
is strictly less than 60). -/
theorem c8_first_record_and_window :
    (∀ (all : List Record) (i : Nat) (r : Record) (u : String),
      r.user_id = some u → (∀ x ∈ all.take i, x.user_id ≠ some u) →
      rapidAt all i r = false) ∧
    (∀ (pre : List Record) (ra rb : Record) (u : String) (t : Int),
      ra.user_id = some u → rb.user_id = some u →
      (∀ x ∈ pre, x.user_id ≠ some u) → ra.timestamp = .parsed t →
      ((rb.timestamp = .parsed (t + 59) →
        rapidAt (pre ++ [ra, rb]) (pre.length + 1) rb = true) ∧
       (rb.timestamp = .parsed (t + 61) →
        rapidAt (pre ++ [ra, rb]) (pre.length + 1) rb = false))) := by
  refine ⟨rapidAt_no_same_user, ?_⟩
  intro pre ra rb u t hua hub hpre hta
  have htake : (pre ++ [ra, rb]).take (pre.length + 1) = pre ++ ra :: [] := by
    rw [List.take_append_eq_append_take, List.take_of_length_le (by omega)]
    have h1 : pre.length + 1 - pre.length = 1 := by omega
    rw [h1]
    rfl
  constructor
  · intro htb
    rw [rapidAt_last_same_user (pre ++ [ra, rb]) (pre.length + 1) rb ra u pre []
      (t + 59) t hub htake hua (by simp) htb hta]
    norm_num
  · intro htb
    rw [rapidAt_last_same_user (pre ++ [ra, rb]) (pre.length + 1) rb ra u pre []
      (t + 61) t hub htake hua (by simp) htb hta]
    norm_num

/-- C8 witness: the first-record case on row 0 of the two-row frame, and
both window boundaries on concrete two-row frames for user U. -/
theorem c8_witness :
    rapidAt exTwoRows 0 (mkRec "A" (TSVal.parsed 100) 5 "Shop" "U" false) = false ∧
    rapidAt [mkRec "A" (TSVal.parsed 0) 5 "Shop" "U" false,
             mkRec "B" (TSVal.parsed 59) 5 "Shop" "U" false] 1
      (mkRec "B" (TSVal.parsed 59) 5 "Shop" "U" false) = true ∧
    rapidAt [mkRec "A" (TSVal.parsed 0) 5 "Shop" "U" false,
             mkRec "C" (TSVal.parsed 61) 5 "Shop" "U" false] 1
      (mkRec "C" (TSVal.parsed 61) 5 "Shop" "U" false) = false :=
  ⟨c8_first_record_and_window.1 exTwoRows 0
      (mkRec "A" (TSVal.parsed 100) 5 "Shop" "U" false) "U" rfl (by simp),
   (c8_first_record_and_window.2 []
      (mkRec "A" (TSVal.parsed 0) 5 "Shop" "U" false)
      (mkRec "B" (TSVal.parsed 59) 5 "Shop" "U" false) "U" 0
      rfl rfl (by simp) rfl).1 rfl,
   (c8_first_record_and_window.2 []
      (mkRec "A" (TSVal.parsed 0) 5 "Shop" "U" false)
      (mkRec "C" (TSVal.parsed 61) 5 "Shop" "U" false) "U" 0
      rfl rfl (by simp) rfl).2 rfl⟩

theorem clean_ok_elim (rs out : List Record) (h : clean rs = .ok out) :
    out = (((dedupById rs).map parseTsRec).filter recComplete).map normMerchant := by
  rw [clean] at h
  cases hp : parseAllTs (dedupById rs) with
  | error e => rw [hp] at h; cases h
  | ok p =>
    rw [hp] at h
    injection h with h
    rw [← h, parseAllTs_ok _ p hp]

theorem clean_ok_pairwise (rs out : List Record) (h : clean rs = .ok out) :
    List.Pairwise (fun a b => a.transaction_id ≠ b.transaction_id) out := by
  rw [clean_ok_elim rs out h]
  have p0 : List.Pairwise
      (fun a b : Record => a.transaction_id ≠ b.transaction_id) (dedupById rs) :=
    pairwise_dedupGo rs []
  have p1 : List.Pairwise
      (fun a b : Record => a.transaction_id ≠ b.transaction_id)
      ((dedupById rs).map parseTsRec) := List.pairwise_map.mpr p0
  have p2 : List.Pairwise
      (fun a b : Record => a.transaction_id ≠ b.transaction_id)
      (((dedupById rs).map parseTsRec).filter recComplete) :=
    p1.sublist (List.filter_sublist _)
  exact List.pairwise_map.mpr p2

theorem recComplete_normMerchant (r : Record) :
    recComplete (normMerchant r) = recComplete r := by
  cases hm : r.merchant <;> simp [normMerchant, recComplete, hm]

theorem parseTsTotal_cases (v : TSVal) :
    (∃ t, parseTsTotal v = .parsed t) ∨ parseTsTotal v = .null := by
  cases v with
  | raw s =>
    cases hp : parseRawTs s with
    | some t => exact Or.inl ⟨t, by rw [parseTsTotal, hp]⟩
    | none => exact Or.inr (by rw [parseTsTotal, hp])
  | parsed t => exact Or.inl ⟨t, rfl⟩
  | null => exact Or.inr rfl

theorem clean_ok_shape (rs out : List Record) (h : clean rs = .ok out) :
    ∀ r ∈ out, recComplete r = true ∧
      (∃ t, r.timestamp = TSVal.parsed t) ∧
      (∃ m₀, r.merchant = some (normMerchStr m₀)) ∧
      ∃ r₀ l₁ l₂, rs = l₁ ++ r₀ :: l₂ ∧
        (∀ x ∈ l₁, x.transaction_id ≠ r₀.transaction_id) ∧ r = cleanRec r₀ := by
  rw [clean_ok_elim rs out h]
  intro r hr
  rcases List.mem_map.mp hr with ⟨q, hqf, rfl⟩
  rcases List.mem_filter.mp hqf with ⟨hqm, hqc⟩
  rcases List.mem_map.mp hqm with ⟨r₀, hr₀, rfl⟩
  rcases mem_dedupGo rs [] r₀ hr₀ with ⟨-, l₁, l₂, hdec, hne⟩
  refine ⟨by rw [recComplete_normMerchant]; exact hqc, ?_, ?_, r₀, l₁, l₂, hdec, hne, rfl⟩
  · have hnn : tsNonNull (parseTsRec r₀).timestamp = true := by
      rw [recComplete] at hqc
      simp only [Bool.and_eq_true] at hqc
      exact hqc.1.1.1.1.2
    rcases parseTsTotal_cases r₀.timestamp with ⟨t, ht⟩ | ht
    · exact ⟨t, ht⟩
    · rw [show (parseTsRec r₀).timestamp = parseTsTotal r₀.timestamp from rfl, ht]
        at hnn
      cases hnn
  · have hms : (parseTsRec r₀).merchant.isSome = true := by
      rw [recComplete] at hqc
      simp only [Bool.and_eq_true] at hqc
      exact hqc.1.1.2
    rcases Option.isSome_iff_exists.mp hms with ⟨m₀, hm₀⟩
    exact ⟨m₀, by simp [normMerchant, hm₀]⟩

theorem clean_ok_ids_sublist (rs out : List Record) (h : clean rs = .ok out) :
    (out.map Record.transaction_id).Sublist (rs.map Record.transaction_id) := by
  rw [clean_ok_elim rs out h]
  have e1 : ((((dedupById rs).map parseTsRec).filter recComplete).map
      normMerchant).map Record.transaction_id =
      (((dedupById rs).map parseTsRec).filter recComplete).map
        Record.transaction_id := by
    rw [List.map_map]; rfl
  have e2 : ((dedupById rs).map parseTsRec).map Record.transaction_id =
      (dedupById rs).map Record.transaction_id := by
    rw [List.map_map]; rfl
  rw [e1]
  have s1 : ((((dedupById rs).map parseTsRec).filter recComplete).map
      Record.transaction_id).Sublist
      (((dedupById rs).map parseTsRec).map Record.transaction_id) :=
    (List.filter_sublist _).map Record.transaction_id
  rw [e2] at s1
  exact s1.trans ((dedupGo_sublist rs []).map Record.transaction_id)

/-- C7: on success the Cleaner keeps at most one row per transaction id,
every surviving row is the cleaned form of the FIRST input row bearing its
id (later occurrences are discarded), and the surviving ids appear in the
same relative order as in the input. -/
theorem c7_first_occurrence_order (rs out : List Record)
    (h : clean rs = .ok out) :
    List.Pairwise (fun a b => a.transaction_id ≠ b.transaction_id) out ∧
    (∀ r ∈ out, ∃ r₀ l₁ l₂, rs = l₁ ++ r₀ :: l₂ ∧
      (∀ x ∈ l₁, x.transaction_id ≠ r₀.transaction_id) ∧ r = cleanRec r₀) ∧
    (out.map Record.transaction_id).Sublist (rs.map Record.transaction_id) := by
  refine ⟨clean_ok_pairwise rs out h, ?_, clean_ok_ids_sublist rs out h⟩
  intro r hr
  exact (clean_ok_shape rs out h r hr).2.2.2

/-- C7 witness: the three conclusions on the concrete duplicated batch. -/
theorem c7_witness :
    List.Pairwise (fun a b => a.transaction_id ≠ b.transaction_id)
      exBatchClean ∧
    (∀ r ∈ exBatchClean, ∃ r₀ l₁ l₂, exBatch = l₁ ++ r₀ :: l₂ ∧
      (∀ x ∈ l₁, x.transaction_id ≠ r₀.transaction_id) ∧ r = cleanRec r₀) ∧
    (exBatchClean.map Record.transaction_id).Sublist
      (exBatch.map Record.transaction_id) :=
  c7_first_occurrence_order exBatch exBatchClean (by decide)

theorem keepWordSpace_idem (l : List Char) :
    keepWordSpace (keepWordSpace l) = keepWordSpace l := by
  rw [keepWordSpace, keepWordSpace, List.filter_filter]
  congr 1
  funext c
  cases isWordCh c <;> cases isSpaceCh c <;> rfl

theorem normMerchStr_fixed (m₀ m : String) (hm : m = normMerchStr m₀)
    (hs : stripStr m = m) : normMerchStr m = m := by
  have hd : stripChars m.data = m.data := congrArg String.data hs
  have hk : keepWordSpace m.data = m.data := by
    rw [hm]
    show keepWordSpace (keepWordSpace (stripChars m₀.data)) = _
    rw [keepWordSpace_idem]
    rfl
  rw [normMerchStr, hd, hk]

/-- C3 counterexample: cleaning is not idempotent.  On the one-row batch
with merchant "! a" the first clean removes the bang and leaves " a"
(stripping happens BEFORE punctuation removal), and a second clean strips
the newly exposed leading space, producing a different record. -/
theorem c3_counterexample :
    clean [mkRec "A" (TSVal.parsed 0) 5 "! a" "U" false] =
      .ok [mkRec "A" (TSVal.parsed 0) 5 " a" "U" false] ∧
    clean [mkRec "A" (TSVal.parsed 0) 5 " a" "U" false] =
      .ok [mkRec "A" (TSVal.parsed 0) 5 "a" "U" false] ∧
    mkRec "A" (TSVal.parsed 0) 5 " a" "U" false ≠
      mkRec "A" (TSVal.parsed 0) 5 "a" "U" false := by decide

/-- C3 (amended): re-cleaning the Cleaner's output can differ from it only
by stripping whitespace that the punctuation removal exposed at the ends of
a merchant string; whenever every cleaned merchant is already
whitespace-stripped, clean is a fixed point: clean (clean rs) = clean rs. -/
theorem c3_idempotent_when_stripped (rs out : List Record)
    (h : clean rs = .ok out)
    (hm : ∀ r ∈ out, r.merchant.map stripStr = r.merchant) :
    clean out = .ok out := by
  have hshape := clean_ok_shape rs out h
  have hdedup : dedupById out = out :=
    dedupGo_eq_self out [] (fun x _ hc => by cases hc)
      (clean_ok_pairwise rs out h)
  have hparse : parseAllTs out = .ok out := by
    apply parseAllTs_id
    intro r hr
    rcases (hshape r hr).2.1 with ⟨t, ht⟩
    rw [ht]
    rfl
  have hfilter : out.filter recComplete = out :=
    List.filter_eq_self.mpr (fun a ha => (hshape a ha).1)
  have hmapn : out.map normMerchant = out := by
    have hfix : ∀ r ∈ out, normMerchant r = r := by
      intro r hr
      rcases (hshape r hr).2.2.1 with ⟨m₀, hmm⟩
      have hsy : stripStr (normMerchStr m₀) = normMerchStr m₀ := by
        have := hm r hr
        rw [hmm] at this
        exact Option.some.inj this
      have hfx := normMerchStr_fixed m₀ (normMerchStr m₀) rfl hsy
      have hme : r.merchant.map normMerchStr = r.merchant := by
        rw [hmm]
        simp [hfx]
      show ({ r with merchant := r.merchant.map normMerchStr } : Record) = r
      rw [hme]
    rw [List.map_congr_left hfix]
    exact List.map_id out
  rw [clean, hdedup, hparse]
  show Except.ok ((out.filter recComplete).map normMerchant) = Except.ok out
  rw [hfilter, hmapn]

/-- C3 witness: on a batch whose cleaned merchant has no surrounding
whitespace, a second clean returns the first output unchanged. -/
theorem c3_witness : clean exPlainClean = .ok exPlainClean :=
  c3_idempotent_when_stripped exPlain exPlainClean (by decide) (by decide)
